import Mathlib

/-!
Shallow embedding of `src/MinPQ.ts`, a TypeScript port of the algs4 `MinPQ`
binary min-heap, together with theorems settling the specification claims.

Modelling choices, all driven by JavaScript semantics of the source:

* Numbers.  The source computes `k / 2` with ordinary JS (floating point)
  division, so array indices such as `1.5` really occur.  Every number the
  source manipulates is a small dyadic rational (an integer divided by a
  power of two), and IEEE-754 arithmetic is exact on these, so we model JS
  numbers by the exact dyadic type `JNum` (`num / 2^exp`, not normalised;
  all comparisons are by value, via cross-multiplication).
* Arrays.  A JS array is a length-bearing block of slots (holes read as
  `undefined`, modelled by `none`) plus a property map for non-integer keys
  (JS coerces such an index to a string property key, and distinct number
  values give distinct keys).
* Comparators.  A comparator is an arbitrary JS function; the source can
  apply it to `undefined` (e.g. `pq[1.5]`), so it is modelled as
  `Option Key → Option Key → Int`.  The only consumer of comparator results
  is `greater`'s `> 0` test, so an `Int` result models any JS number result,
  with `NaN` modelled by any value that is not `> 0`.
* Loops.  `while` loops become fuel-indexed recursion; each loop returns its
  result together with a flag that is `true` iff the loop reached its exit
  condition within the given fuel.  The fuels used by `insert` and `delMin`
  are proved sufficient (see the termination theorem for claim C9), so the
  embedded operations agree with the source.
-/

/-- An exact JS number: the dyadic rational `num / 2^exp`.  The
representation is not normalised; all value-level operations below compare by
value. -/
structure JNum where
  num : Int
  exp : Nat
deriving DecidableEq

/-- `2^e` as an integer. -/
def pow2 (e : Nat) : Int :=
  ((2 ^ e : Nat) : Int)

/-- The integer `n` as a JS number. -/
def JNum.ofNat (n : Nat) : JNum :=
  ⟨(n : Int), 0⟩

instance (n : Nat) : OfNat JNum n :=
  ⟨JNum.ofNat n⟩

/-- Value equality of JS numbers (`==` on two dyadics). -/
def jeq (a b : JNum) : Bool :=
  decide (a.num * pow2 b.exp = b.num * pow2 a.exp)

/-- Value order `a <= b` on JS numbers. -/
def jle (a b : JNum) : Bool :=
  decide (a.num * pow2 b.exp ≤ b.num * pow2 a.exp)

/-- Value order `a < b` on JS numbers. -/
def jlt (a b : JNum) : Bool :=
  decide (a.num * pow2 b.exp < b.num * pow2 a.exp)

/-- `a / 2`, exact. -/
def half (a : JNum) : JNum :=
  ⟨a.num, a.exp + 1⟩

/-- `2 * a`, exact. -/
def jdouble (a : JNum) : JNum :=
  ⟨2 * a.num, a.exp⟩

/-- `a + 1`, exact. -/
def jadd1 (a : JNum) : JNum :=
  ⟨a.num + pow2 a.exp, a.exp⟩

/-- Is this JS number a valid array index, i.e. a non-negative integer? -/
def isIdx (a : JNum) : Bool :=
  decide (0 ≤ a.num) && decide (a.num % pow2 a.exp = 0)

/-- The array index denoted by a non-negative integer JS number. -/
def jidx (a : JNum) : Nat :=
  a.num.toNat / 2 ^ a.exp

/-- A JS comparator as stored by `MinPQ`: it may be applied to `undefined`. -/
abbrev Cmp (Key : Type) := Option Key → Option Key → Int

/-- Errors the source can throw: `"Priority queue underflow"`, and the
`RangeError` thrown by `new Array(len)` for a non-integer `len`. -/
inductive Err where
  | underflow
  | rangeError
deriving DecidableEq

/-- A JS array: `slots` are the indexed elements `0 .. length-1` (`none` is a
hole / `undefined`), `props` are properties under non-integer keys, created by
writes such as `pq[1.5] = v`. -/
structure JSArr (Key : Type) where
  slots : List (Option Key)
  props : List (JNum × Option Key)
deriving DecidableEq

/-- `new Array(cap)`: `cap` holes. -/
def mkArr {Key : Type} (cap : Nat) : JSArr Key :=
  ⟨List.replicate cap none, []⟩

/-- `a.length`. -/
def alen {Key : Type} (a : JSArr Key) : Nat :=
  a.slots.length

/-- Read `a[q]`.  A non-negative integer `q` reads the slot (an out-of-range
read gives `undefined`); any other `q` reads the property map. -/
def aget {Key : Type} (a : JSArr Key) (q : JNum) : Option Key :=
  if isIdx q then a.slots.getD (jidx q) none
  else (((a.props.find? fun p => jeq p.1 q)).map Prod.snd).getD none

/-- Write `a[q] = v`.  A non-negative integer `q` writes the slot, extending
the array when `q ≥ length` (as JS does); any other `q` writes the property
map. -/
def aset {Key : Type} (a : JSArr Key) (q : JNum) (v : Option Key) : JSArr Key :=
  if isIdx q then
    let i := jidx q
    if i < a.slots.length then ⟨a.slots.set i v, a.props⟩
    else ⟨a.slots ++ List.replicate (i - a.slots.length) none ++ [v], a.props⟩
  else ⟨a.slots, (q, v) :: a.props⟩

/-- `greater(i, j)`: `this.comparator(this.pq[i], this.pq[j]) > 0`. -/
def greater {Key : Type} (c : Cmp Key) (a : JSArr Key) (i j : JNum) : Bool :=
  decide (0 < c (aget a i) (aget a j))

/-- `exch(i, j)`: `swap = pq[i]; pq[i] = pq[j]; pq[j] = swap`. -/
def exch {Key : Type} (a : JSArr Key) (i j : JNum) : JSArr Key :=
  aset (aset a i (aget a j)) j (aget a i)

/-- `swim(k)`: `while (k > 1 && greater(k/2, k)) { exch(k, k/2); k = k/2 }`.
Note `k / 2` is JS float division.  Fuel-indexed; the flag is `true` iff the
loop reached its exit condition within the fuel. -/
def swimAux {Key : Type} (c : Cmp Key) : Nat → JSArr Key → JNum → JSArr Key × Bool
  | 0, a, k => (a, !(jlt 1 k && greater c a (half k) k))
  | fuel + 1, a, k =>
    if jlt 1 k && greater c a (half k) k then
      swimAux c fuel (exch a k (half k)) (half k)
    else (a, true)

/-- `sink(k)`: `while (2*k <= n) { var j = 2*k; if (j < n && greater(j, j+1))
j++; if (!greater(k, j)) break; exch(k, j); k = j }`.  Fuel-indexed as for
`swimAux`. -/
def sinkAux {Key : Type} (c : Cmp Key) (n : Nat) :
    Nat → JSArr Key → JNum → JSArr Key × Bool
  | 0, a, k => (a, !jle (jdouble k) (JNum.ofNat n))
  | fuel + 1, a, k =>
    if jle (jdouble k) (JNum.ofNat n) then
      let j := jdouble k
      let j := if jlt j (JNum.ofNat n) && greater c a j (jadd1 j) then jadd1 j else j
      if greater c a k j then sinkAux c n fuel (exch a k j) j
      else (a, true)
    else (a, true)

/-- `resize(capacity)` for an integer capacity: `temp = new Array(capacity);
for (i = 1; i <= n; i++) temp[i] = pq[i]; pq = temp`. -/
def resizeA {Key : Type} (a : JSArr Key) (n cap : Nat) : JSArr Key :=
  (List.range' 1 n).foldl
    (fun t i => aset t (JNum.ofNat i) (aget a (JNum.ofNat i))) (mkArr cap)

/-- The fields of a `MinPQ` object apart from the comparator (which is fixed
for the object's lifetime and passed as a parameter `c` everywhere). -/
structure PQState (Key : Type) where
  pq : JSArr Key
  n : Nat
deriving DecidableEq

/-- `new MinPQ(comparator, initCapacity)`: `pq = new Array(initCapacity || 1);
n = 0`.  (`0` is falsy in JS, hence the `|| 1`.) -/
def initPQ {Key : Type} (initCapacity : Option Nat) : PQState Key :=
  ⟨mkArr (match initCapacity with
          | some cap => if cap = 0 then 1 else cap
          | none => 1), 0⟩

/-- `insert(x)`: grow when `n == pq.length - 1`, then `pq[++n] = x; swim(n)`.
The swim fuel `n' + 1` is proved sufficient (claim C9). -/
def insertA {Key : Type} (c : Cmp Key) (s : PQState Key) (x : Key) : PQState Key :=
  let s1 : PQState Key :=
    if jeq (JNum.ofNat s.n) ⟨(alen s.pq : Int) - 1, 0⟩ then
      ⟨resizeA s.pq s.n (2 * alen s.pq), s.n⟩
    else s
  let n' := s1.n + 1
  let a' := aset s1.pq (JNum.ofNat n') (some x)
  ⟨(swimAux c (n' + 1) a' (JNum.ofNat n')).1, n'⟩

/-- `min()`: underflow on empty, else return `pq[1]`.  The source performs no
writes here, so the embedding returns no state. -/
def minA {Key : Type} (s : PQState Key) : Except Err (Option Key) :=
  if s.n = 0 then .error .underflow else .ok (aget s.pq 1)

/-- `delMin()`: underflow check, `min = pq[1]`, `exch(1, n--)`, `sink(1)`,
`pq[n+1] = pq[n]`, then `if (n > 0 && n == (pq.length - 1) / 4)
resize(pq.length / 2)`.  Both divisions are JS float divisions:
`(pq.length - 1) / 4` is the dyadic `⟨length - 1, 2⟩`, and `pq.length / 2` is
an integer only when the length is even — otherwise `new Array` throws
`RangeError`.  On an error the returned state is the state at the moment of
the throw. -/
def delMinA {Key : Type} (c : Cmp Key) (s : PQState Key) :
    Except Err (Option Key) × PQState Key :=
  if s.n = 0 then (.error .underflow, s)
  else
    let m := aget s.pq 1
    let a1 := exch s.pq 1 (JNum.ofNat s.n)
    let n1 := s.n - 1
    let a2 := (sinkAux c n1 (n1 + 1) a1 1).1
    let a3 := aset a2 (JNum.ofNat (n1 + 1)) (aget a2 (JNum.ofNat n1))
    if 0 < n1 ∧ jeq (JNum.ofNat n1) ⟨(alen a3 : Int) - 1, 2⟩ = true then
      if alen a3 % 2 = 0 then (.ok m, ⟨resizeA a3 n1 (alen a3 / 2), n1⟩)
      else (.error .rangeError, ⟨a3, n1⟩)
    else (.ok m, ⟨a3, n1⟩)

/-- The heap invariant as stated by the spec: for every `1 ≤ k ≤ n` and each
child `2k`, `2k+1` that is `≤ n`, `comparator(storage[k], child) ≤ 0`. -/
def heapInv {Key : Type} (c : Cmp Key) (s : PQState Key) : Bool :=
  (List.range' 1 s.n).all fun k =>
    (!decide (2 * k ≤ s.n) ||
      decide (c (aget s.pq (JNum.ofNat k)) (aget s.pq (JNum.ofNat (2 * k))) ≤ 0)) &&
    (!decide (2 * k + 1 ≤ s.n) ||
      decide (c (aget s.pq (JNum.ofNat k)) (aget s.pq (JNum.ofNat (2 * k + 1))) ≤ 0))

/-- Calling `delMin()` repeatedly until the queue is empty, collecting the
returned values (stopping early if a call throws). -/
def drainVals {Key : Type} (c : Cmp Key) : Nat → PQState Key → List (Option Key)
  | 0, _ => []
  | fuel + 1, s =>
    if s.n = 0 then []
    else match delMinA c s with
      | (Except.ok v, s') => v :: drainVals c fuel s'
      | (Except.error _, _) => []

/-- A list is non-decreasing under the comparator. -/
def sortedByC {Key : Type} (c : Cmp Key) : List (Option Key) → Bool
  | [] => true
  | [_] => true
  | x :: y :: l => decide (c x y ≤ 0) && sortedByC c (y :: l)

/-- `[...this.pq]`: a fresh dense array of the same length; holes materialise
as `undefined` and non-integer properties are not copied. -/
def spreadArr {Key : Type} (a : JSArr Key) : JSArr Key :=
  ⟨a.slots, []⟩

/-- `copy()` at the level of field contents: `copy.pq = [...this.pq];
copy.n = this.n` (the fresh-allocation aspect is modelled in the store layer
below). -/
def copyA {Key : Type} (s : PQState Key) : PQState Key :=
  ⟨spreadArr s.pq, s.n⟩

/-- One item yielded by the generator `[Symbol.iterator]`.  The source yields
the wrapper objects `{ value: copy.delMin(), done: false }` and finally
`{ done: true }` (whose `value` is `undefined`). -/
abbrev IterItem (Key : Type) := Option Key × Bool

/-- The generator loop: `while (!copy.isEmpty()) yield { value: copy.delMin(),
done: false }; yield { done: true }`.  An exception from `delMin` propagates
out of the generator.  Fuel `n + 1` is proved sufficient (claim C9). -/
def drainA {Key : Type} (c : Cmp Key) : Nat → PQState Key → Except Err (List (IterItem Key))
  | 0, _ => .ok []
  | fuel + 1, s =>
    if s.n = 0 then .ok [(none, true)]
    else match delMinA c s with
      | (Except.ok v, s') => (drainA c fuel s').map (fun l => (v, false) :: l)
      | (Except.error e, _) => .error e

/-- The whole traversal `[Symbol.iterator]()` run to completion: take a copy,
then drain it. -/
def iterA {Key : Type} (c : Cmp Key) (s : PQState Key) : Except Err (List (IterItem Key)) :=
  drainA c (s.n + 1) (copyA s)

/-- The demo script's comparator `(a, b) => a - b` on numbers.  When a JS
operand is `undefined` the subtraction yields `NaN`, and `NaN > 0` is `false`;
comparator results reach the queue only through `greater`'s `> 0` test, so
returning `0` on an `undefined` operand models the JS behaviour exactly. -/
def cNum : Cmp Int := fun a b =>
  match a, b with
  | some x, some y => x - y
  | _, _ => 0

/-- The state after `insert(5); insert(4); insert(3)` from an empty queue. -/
def s543 : PQState Int :=
  insertA cNum (insertA cNum (insertA cNum (initPQ none) 5) 4) 3

/-- The demo script's state after `insert(5); insert(2); insert(3)`. -/
def s523 : PQState Int :=
  insertA cNum (insertA cNum (insertA cNum (initPQ none) 5) 2) 3

/-- The state after `insert(1); insert(2)` from an empty queue. -/
def s12 : PQState Int :=
  insertA cNum (insertA cNum (initPQ none) 1) 2

deriving instance DecidableEq for Except

/-- C1: the claim "after any sequence of insert and extractMin calls starting
from an empty heap, the heap invariant holds" is refuted by the code: with the
demo's numeric comparator, inserting 5, 4, 3 leaves storage `[4, 5, 3]` with
parent `4` (index 1) greater than its child `3` (index 3).  The cause is that
`swim` computes the parent index as `k / 2` with JS float division, so for
`k = 3` it compares `pq[1.5]` (`undefined`) and stops sifting immediately. -/
theorem heap_invariant_violated_after_inserts :
    heapInv cNum s543 = false ∧ s543.n = 3 ∧
      s543.pq.slots = [none, some 4, some 5, some 3] ∧
      cNum (aget s543.pq 1) (aget s543.pq 3) > 0 := by
  decide

/-- C2: the claim "inserting elements in any order and extracting until empty
returns them in non-decreasing comparator order" is refuted: with the numeric
comparator (shown to be total and transitive on defined values), inserting
5, 4, 3 and extracting three times yields 4, 3, 5 — not sorted.  Same root
cause as C1: `swim`'s float division breaks the heap invariant. -/
theorem extraction_not_sorted_for_valid_comparator :
    drainVals cNum 3 s543 = [some 4, some 3, some 5] ∧
      sortedByC cNum (drainVals cNum 3 s543) = false ∧
      (∀ x y : Int, cNum (some x) (some y) ≤ 0 ∨ cNum (some y) (some x) ≤ 0) ∧
      (∀ x y z : Int, cNum (some x) (some y) ≤ 0 → cNum (some y) (some z) ≤ 0 →
        cNum (some x) (some z) ≤ 0) := by
  refine ⟨by decide, by decide, ?_, ?_⟩
  · intro x y
    simp only [cNum]
    omega
  · intro x y z
    simp only [cNum]
    omega

/-- C3: the claim "a single run of the ascending traversal emits exactly
`count` elements, and the emitted items are the heap's elements" is refuted:
on the demo heap (insert 5, 2, 3; `count = 3`) the generator yields four
items, namely the wrapper objects `{value: 2, done: false}`,
`{value: 3, done: false}`, `{value: 5, done: false}` and a final
`{done: true}` — the generator protocol already wraps yielded values, so the
source double-wraps and emits `count + 1` items that are not the elements. -/
theorem traversal_emits_wrapped_items_and_extra_terminal :
    iterA cNum s523 =
      Except.ok [(some 2, false), (some 3, false), (some 5, false), (none, true)] ∧
      s523.n = 3 ∧
      ([(some 2, false), (some 3, false), (some 5, false), (none, true)] :
        List (IterItem Int)).length = 4 := by
  decide

/-- C5: the claim "after an extraction leaving at least one element and
occupancy ≤ 25% of capacity, the capacity is halved" is refuted: from an empty
queue, insert 1 and 2 (capacity grows 1 → 2 → 4), then extract once.  One
element remains in a capacity-4 array (occupancy 25%), yet the capacity stays
4: the code's guard `n == (pq.length - 1) / 4` uses JS float division
(`1 == 0.75` is false), so with doubled capacities the shrink never fires. -/
theorem capacity_not_halved_at_quarter_occupancy :
    alen s12.pq = 4 ∧
      delMinA cNum s12 = (Except.ok (some 1), ⟨⟨[none, some 2, some 2, none], []⟩, 1⟩) ∧
      (delMinA cNum s12).2.n = 1 ∧
      4 * (delMinA cNum s12).2.n ≤ alen s12.pq ∧
      alen (delMinA cNum s12).2.pq = 4 := by
  decide

/-- C6: the claim "every successful extractMin clears the vacated trailing
slot so it no longer references any element" is refuted: the code executes
`pq[n+1] = pq[n]`, which stores a second reference to the element at position
`n` instead of clearing the slot (the algs4 original has `pq[n+1] = null`).
After inserting 1, 2 and extracting once, slot 2 (= count + 1) holds the
element 2. -/
theorem trailing_slot_not_cleared :
    (delMinA cNum s12).2.n = 1 ∧
      aget (delMinA cNum s12).2.pq 2 = some 2 ∧
      aget (delMinA cNum s12).2.pq 2 ≠ none := by
  decide

/-- C4: `min()` and `delMin()` throw underflow exactly when the queue is
empty, the underflow throw happens before any mutation (the state returned
with it is the input state), and on a non-empty queue neither operation raises
underflow (for any comparator whatsoever). -/
theorem underflow_on_empty_and_only_on_empty {Key : Type} (c : Cmp Key)
    (s : PQState Key) :
    (s.n = 0 → minA s = Except.error Err.underflow ∧
      delMinA c s = (Except.error Err.underflow, s)) ∧
    (0 < s.n → minA s = Except.ok (aget s.pq 1) ∧
      (delMinA c s).1 ≠ Except.error Err.underflow) := by
  constructor
  · intro h
    simp [minA, delMinA, h]
  · intro h
    have hne : s.n ≠ 0 := Nat.pos_iff_ne_zero.mp h
    refine ⟨by simp [minA, hne], ?_⟩
    simp only [delMinA, if_neg hne]
    split
    · split
      · simp
      · simp
    · simp

/-- C4 witness: the underflow case at the freshly constructed empty queue, and
the non-underflow case at a concrete 3-element queue. -/
theorem underflow_witness :
    minA (initPQ none : PQState Int) = Except.error Err.underflow ∧
      (delMinA cNum s543).1 ≠ Except.error Err.underflow :=
  ⟨((underflow_on_empty_and_only_on_empty cNum (initPQ none)).1 rfl).1,
   ((underflow_on_empty_and_only_on_empty cNum s543).2 (by decide)).2⟩

/-- C10: on any non-empty queue, `min()` returns the root `pq[1]`, and
whenever an immediately following `delMin()` returns at all (it can only fail
with the shrink-path `RangeError`), it returns that same root value. -/
theorem min_agrees_with_extractMin {Key : Type} (c : Cmp Key) (s : PQState Key)
    (h : 0 < s.n) :
    minA s = Except.ok (aget s.pq 1) ∧
      ((delMinA c s).1 = Except.ok (aget s.pq 1) ∨
        (delMinA c s).1 = Except.error Err.rangeError) := by
  have hne : s.n ≠ 0 := Nat.pos_iff_ne_zero.mp h
  refine ⟨by simp [minA, hne], ?_⟩
  simp only [delMinA, if_neg hne]
  split
  · split
    · exact Or.inl rfl
    · exact Or.inr rfl
  · exact Or.inl rfl

/-- C10 witness: applied to the concrete queue holding 4, 5, 3. -/
theorem min_agrees_witness :
    minA s543 = Except.ok (aget s543.pq 1) ∧
      ((delMinA cNum s543).1 = Except.ok (aget s543.pq 1) ∨
        (delMinA cNum s543).1 = Except.error Err.rangeError) :=
  min_agrees_with_extractMin cNum s543 (by decide)

theorem jnum_one : (1 : JNum) = ⟨1, 0⟩ :=
  rfl

theorem jlt_one (k : JNum) : jlt 1 k = decide (pow2 k.exp < k.num) := by
  rw [jnum_one]
  simp [jlt, pow2]

theorem jdouble_ofNat (m : Nat) : jdouble (JNum.ofNat m) = JNum.ofNat (2 * m) := by
  simp [jdouble, JNum.ofNat]

theorem jadd1_ofNat (m : Nat) : jadd1 (JNum.ofNat m) = JNum.ofNat (m + 1) := by
  simp [jadd1, JNum.ofNat, pow2]

theorem jle_ofNat (a b : Nat) : jle (JNum.ofNat a) (JNum.ofNat b) = decide (a ≤ b) := by
  simp [jle, JNum.ofNat, pow2]

theorem jlt_ofNat (a b : Nat) : jlt (JNum.ofNat a) (JNum.ofNat b) = decide (a < b) := by
  simp [jlt, JNum.ofNat, pow2]

/-- The swim loop reaches its exit condition once the fuel exponent dominates
the starting index, for every comparator: the index halves each iteration. -/
theorem swim_fuel {Key : Type} (c : Cmp Key) :
    ∀ (fuel : Nat) (a : JSArr Key) (k : JNum),
      k.num ≤ pow2 (fuel + k.exp) → (swimAux c fuel a k).2 = true := by
  intro fuel
  induction fuel with
  | zero =>
    intro a k h
    have hlt : jlt 1 k = false := by
      rw [jlt_one, decide_eq_false_iff_not]
      rw [Nat.zero_add] at h
      omega
    simp [swimAux, hlt]
  | succ fuel ih =>
    intro a k h
    simp only [swimAux]
    split
    · apply ih
      show k.num ≤ pow2 (fuel + (k.exp + 1))
      have he : fuel + (k.exp + 1) = fuel + 1 + k.exp := by omega
      rw [he]
      exact h
    · rfl

/-- The sink loop reaches its exit condition when `n + 1 ≤ fuel + k`, for
every comparator: the index at least doubles each iteration. -/
theorem sink_fuel {Key : Type} (c : Cmp Key) (n : Nat) :
    ∀ (fuel m : Nat) (a : JSArr Key), 1 ≤ m → n + 1 ≤ fuel + m →
      (sinkAux c n fuel a (JNum.ofNat m)).2 = true := by
  intro fuel
  induction fuel with
  | zero =>
    intro m a hm hf
    have h2 : ¬ (2 * m ≤ n) := by omega
    simp [sinkAux, jdouble_ofNat, jle_ofNat, h2]
  | succ fuel ih =>
    intro m a hm hf
    simp only [sinkAux, jdouble_ofNat, jadd1_ofNat, jle_ofNat, jlt_ofNat]
    split
    · cases hP : (decide (2 * m < n) && greater c a (JNum.ofNat (2 * m)) (JNum.ofNat (2 * m + 1))) with
      | false =>
        simp only [hP, Bool.false_eq_true, if_false]
        split
        · exact ih (2 * m) _ (by omega) (by omega)
        · rfl
      | true =>
        simp only [hP, if_true]
        split
        · exact ih (2 * m + 1) _ (by omega) (by omega)
        · rfl
    · rfl

/-- Every successful `delMin` decrements `n` by one. -/
theorem delMinA_count {Key : Type} (c : Cmp Key) (s : PQState Key)
    (v : Option Key) (s' : PQState Key) (h : delMinA c s = (Except.ok v, s')) :
    s'.n = s.n - 1 := by
  by_cases h0 : s.n = 0
  · simp [delMinA, h0] at h
  · simp only [delMinA, if_neg h0] at h
    split at h
    · split at h
      · injection h with h1 h2
        subst h2
        rfl
      · exact absurd h (by simp)
    · injection h with h1 h2
      subst h2
      rfl

/-- One unfolding step of the generator loop. -/
theorem drainA_succ {Key : Type} (c : Cmp Key) (fuel : Nat) (s : PQState Key) :
    drainA c (fuel + 1) s =
      if s.n = 0 then .ok [(none, true)]
      else match delMinA c s with
        | (Except.ok v, s') => (drainA c fuel s').map (fun l => (v, false) :: l)
        | (Except.error e, _) => .error e :=
  rfl

/-- The generator loop is insensitive to extra fuel once the fuel exceeds the
element count: `n` strictly decreases each iteration. -/
theorem drainA_stable {Key : Type} (c : Cmp Key) :
    ∀ (fuel : Nat) (s : PQState Key), s.n < fuel →
      drainA c fuel s = drainA c (fuel + 1) s := by
  intro fuel
  induction fuel with
  | zero =>
    intro s h
    exact absurd h (Nat.not_lt_zero _)
  | succ fuel ih =>
    intro s h
    rw [drainA_succ, drainA_succ]
    by_cases h0 : s.n = 0
    · rw [if_pos h0, if_pos h0]
    · rw [if_neg h0, if_neg h0]
      rcases hd : delMinA c s with ⟨r, s'⟩
      cases r with
      | error e => rfl
      | ok v =>
        have hn : s'.n = s.n - 1 := delMinA_count c s v s' hd
        exact congrArg (Except.map fun l => (v, false) :: l) (ih s' (by omega))

/-- C9: every loop in the source reaches its exit condition in finitely many
iterations for every comparator, including inconsistent ones.  First
conjunct: the swim loop exactly as invoked by `insert` (start index `n'`,
fuel `n' + 1`).  Second: the sink loop exactly as invoked by `delMin` (start
index 1, fuel `n1 + 1`).  Third: the traversal's drain loop needs at most
`count` iterations plus the terminal yield, so the fuel `n + 1` used by
`iterA` is exact.  (`min`, `isEmpty`, `size`, `copy` are loop-free except for
the bounded `resize`/spread copies.) -/
theorem loops_and_traversal_terminate {Key : Type} :
    (∀ (c : Cmp Key) (a : JSArr Key) (n' : Nat),
        (swimAux c (n' + 1) a (JNum.ofNat n')).2 = true) ∧
    (∀ (c : Cmp Key) (a : JSArr Key) (n1 : Nat),
        (sinkAux c n1 (n1 + 1) a 1).2 = true) ∧
    (∀ (c : Cmp Key) (s : PQState Key),
        drainA c (s.n + 1) s = drainA c (s.n + 2) s) := by
  refine ⟨?_, ?_, ?_⟩
  · intro c a n'
    apply swim_fuel
    show ((n' : Nat) : Int) ≤ ((2 ^ (n' + 1 + 0) : Nat) : Int)
    have h := Nat.lt_two_pow n'
    exact_mod_cast Nat.le_of_lt
      (Nat.lt_of_lt_of_le h (Nat.pow_le_pow_right (by norm_num) (by omega)))
  · intro c a n1
    have h1 : (1 : JNum) = JNum.ofNat 1 := rfl
    rw [h1]
    exact sink_fuel c n1 (n1 + 1) 1 a (by omega) (by omega)
  · intro c s
    exact drainA_stable c (s.n + 1) s (by omega)

/-- The mutable runtime heap, restricted to what the source allocates:
arrays.  A reference is an index into the allocation list. -/
abbrev ArrStore (Key : Type) := List (JSArr Key)

/-- A `MinPQ` object: its `pq` field (a reference to an array in the store)
and its `n` field.  Objects are never aliased by the source (each is owned by
its creator), so they are passed functionally; only arrays live in the
store.  The `comparator` field is the shared parameter `c`. -/
structure PQObj where
  ref : Nat
  n : Nat
deriving DecidableEq

def getArr {Key : Type} (st : ArrStore Key) (r : Nat) : JSArr Key :=
  (st[r]?).getD ⟨[], []⟩

def setArr {Key : Type} (st : ArrStore Key) (r : Nat) (a : JSArr Key) : ArrStore Key :=
  st.set r a

/-- The functional state denoted by an object in a store. -/
def toState {Key : Type} (st : ArrStore Key) (o : PQObj) : PQState Key :=
  ⟨getArr st o.ref, o.n⟩

/-- `insert(x)` at the store level.  The grow branch's `resize` allocates a
fresh `temp` array and re-points the object's `pq` field at it; all in-place
writes of the insert land on the object's (possibly new) array. -/
def insertS {Key : Type} (c : Cmp Key) (st : ArrStore Key) (o : PQObj) (x : Key) :
    ArrStore Key × PQObj :=
  let p : ArrStore Key × PQObj :=
    if jeq (JNum.ofNat o.n) ⟨(alen (getArr st o.ref) : Int) - 1, 0⟩ then
      (st ++ [resizeA (getArr st o.ref) o.n (2 * alen (getArr st o.ref))],
       ⟨st.length, o.n⟩)
    else (st, o)
  let n' := p.2.n + 1
  let a' := aset (getArr p.1 p.2.ref) (JNum.ofNat n') (some x)
  (setArr p.1 p.2.ref (swimAux c (n' + 1) a' (JNum.ofNat n')).1, ⟨p.2.ref, n'⟩)

/-- `delMin()` at the store level.  The in-place writes (`exch`, `sink`,
`pq[n+1] = pq[n]`) land on the object's array; a successful shrink `resize`
allocates a fresh array and re-points the object's `pq` field at it. -/
def delMinS {Key : Type} (c : Cmp Key) (st : ArrStore Key) (o : PQObj) :
    Except Err (Option Key) × ArrStore Key × PQObj :=
  if o.n = 0 then (.error .underflow, st, o)
  else
    let a := getArr st o.ref
    let m := aget a 1
    let a1 := exch a 1 (JNum.ofNat o.n)
    let n1 := o.n - 1
    let a2 := (sinkAux c n1 (n1 + 1) a1 1).1
    let a3 := aset a2 (JNum.ofNat (n1 + 1)) (aget a2 (JNum.ofNat n1))
    let st3 := setArr st o.ref a3
    if 0 < n1 ∧ jeq (JNum.ofNat n1) ⟨(alen a3 : Int) - 1, 2⟩ = true then
      if alen a3 % 2 = 0 then
        (.ok m, st3 ++ [resizeA a3 n1 (alen a3 / 2)], ⟨st3.length, n1⟩)
      else (.error .rangeError, st3, ⟨o.ref, n1⟩)
    else (.ok m, st3, ⟨o.ref, n1⟩)

/-- `min()` at the store level: reads only. -/
def minS {Key : Type} (st : ArrStore Key) (o : PQObj) : Except Err (Option Key) :=
  if o.n = 0 then .error .underflow else .ok (aget (getArr st o.ref) 1)

/-- `copy()`: `new MinPQ(this.comparator, 0)` allocates a fresh object whose
`pq` is `new Array(1)` (`0` is falsy, so `0 || 1` is `1`); then
`copy.pq = [...this.pq]` allocates the spread array and re-points `copy.pq`
at it; `copy.n = this.n`.  The comparator reference is shared. -/
def copyS {Key : Type} (st : ArrStore Key) (o : PQObj) : ArrStore Key × PQObj :=
  (st ++ [mkArr 1, spreadArr (getArr st o.ref)], ⟨st.length + 1, o.n⟩)

/-- The generator loop at the store level, draining the copy in place. -/
def drainS {Key : Type} (c : Cmp Key) :
    Nat → ArrStore Key → PQObj → Except Err (List (IterItem Key)) × ArrStore Key
  | 0, st, _ => (.ok [], st)
  | fuel + 1, st, o =>
    if o.n = 0 then (.ok [(none, true)], st)
    else
      match (delMinS c st o).1 with
      | Except.ok v =>
        let rest := drainS c fuel (delMinS c st o).2.1 (delMinS c st o).2.2
        ((rest.1).map (fun l => (v, false) :: l), rest.2)
      | Except.error e => (.error e, (delMinS c st o).2.1)

/-- The whole traversal `[Symbol.iterator]()` at the store level. -/
def iterS {Key : Type} (c : Cmp Key) (st : ArrStore Key) (o : PQObj) :
    Except Err (List (IterItem Key)) × ArrStore Key :=
  drainS c ((copyS st o).2.n + 1) (copyS st o).1 (copyS st o).2

theorem getArr_setArr_self {Key : Type} (st : ArrStore Key) (r : Nat) (a : JSArr Key)
    (h : r < st.length) : getArr (setArr st r a) r = a := by
  simp [getArr, setArr, List.getElem?_set_self, h]

theorem getArr_setArr_ne {Key : Type} (st : ArrStore Key) (r r' : Nat) (a : JSArr Key)
    (h : r ≠ r') : getArr (setArr st r a) r' = getArr st r' := by
  simp [getArr, setArr, List.getElem?_set_ne h]

theorem length_setArr {Key : Type} (st : ArrStore Key) (r : Nat) (a : JSArr Key) :
    (setArr st r a).length = st.length :=
  List.length_set st r a

theorem getArr_append_left {Key : Type} (st l : ArrStore Key) (r : Nat)
    (h : r < st.length) : getArr (st ++ l) r = getArr st r := by
  unfold getArr
  rw [List.getElem?_append, if_pos h]

theorem getArr_append_one {Key : Type} (st : ArrStore Key) (a : JSArr Key) :
    getArr (st ++ [a]) st.length = a := by
  unfold getArr
  rw [List.getElem?_append_right (by omega)]
  simp

theorem getArr_append_two {Key : Type} (st : ArrStore Key) (a b : JSArr Key) :
    getArr (st ++ [a, b]) (st.length + 1) = b := by
  unfold getArr
  rw [List.getElem?_append_right (by omega)]
  simp

theorem isIdx_ofNat (n : Nat) : isIdx (JNum.ofNat n) = true := by
  simp [isIdx, JNum.ofNat, pow2]

theorem aget_spreadArr_ofNat {Key : Type} (a : JSArr Key) (i : Nat) :
    aget (spreadArr a) (JNum.ofNat i) = aget a (JNum.ofNat i) := by
  simp [aget, spreadArr, isIdx_ofNat]

/-- `insertS` refines `insertA`: the denoted state agrees, the object's
reference stays valid, the store only grows, and no array other than the
object's own is touched. -/
theorem insertS_spec {Key : Type} (c : Cmp Key) (st : ArrStore Key) (o : PQObj)
    (x : Key) (hv : o.ref < st.length) :
    toState (insertS c st o x).1 (insertS c st o x).2 = insertA c (toState st o) x ∧
    (insertS c st o x).2.ref < (insertS c st o x).1.length ∧
    st.length ≤ (insertS c st o x).1.length ∧
    (∀ r, r < st.length → r ≠ o.ref → getArr (insertS c st o x).1 r = getArr st r) := by
  by_cases hg : jeq (JNum.ofNat o.n) ⟨(alen (getArr st o.ref) : Int) - 1, 0⟩ = true
  · simp only [insertS, insertA, toState, if_pos hg]
    refine ⟨?_, ?_, ?_, ?_⟩
    · rw [PQState.mk.injEq]
      constructor
      · rw [getArr_setArr_self _ _ _ (by simp), getArr_append_one]
      · rfl
    · rw [length_setArr]
      simp
    · rw [length_setArr]
      simp
    · intro r hr hro
      rw [getArr_setArr_ne _ _ _ _ (by omega), getArr_append_left _ _ _ hr]
  · simp only [insertS, insertA, toState, if_neg hg]
    refine ⟨?_, ?_, ?_, ?_⟩
    · rw [PQState.mk.injEq]
      exact ⟨by rw [getArr_setArr_self _ _ _ hv], rfl⟩
    · rw [length_setArr]
      exact hv
    · rw [length_setArr]
    · intro r hr hro
      rw [getArr_setArr_ne _ _ _ _ (Ne.symm hro)]

/-- `delMinS` refines `delMinA`: result and denoted state agree, the object's
reference stays valid, the store only grows, no array other than the object's
own is touched, and the object keeps its reference unless the shrink branch
allocates a fresh one. -/
theorem delMinS_spec {Key : Type} (c : Cmp Key) (st : ArrStore Key) (o : PQObj)
    (hv : o.ref < st.length) :
    (delMinS c st o).1 = (delMinA c (toState st o)).1 ∧
    toState (delMinS c st o).2.1 (delMinS c st o).2.2 = (delMinA c (toState st o)).2 ∧
    (delMinS c st o).2.2.ref < (delMinS c st o).2.1.length ∧
    st.length ≤ (delMinS c st o).2.1.length ∧
    (∀ r, r < st.length → r ≠ o.ref → getArr (delMinS c st o).2.1 r = getArr st r) ∧
    ((delMinS c st o).2.2.ref = o.ref ∨ (delMinS c st o).2.2.ref = st.length) := by
  by_cases h0 : o.n = 0
  · simp [delMinS, delMinA, toState, h0, hv]
  · simp only [delMinS, delMinA, toState, if_neg h0]
    split
    · split
      · refine ⟨rfl, ?_, ?_, ?_, ?_, Or.inr ?_⟩
        · rw [PQState.mk.injEq]
          exact ⟨getArr_append_one _ _, rfl⟩
        · simp [length_setArr]
        · simp [length_setArr]
        · intro r hr hro
          rw [getArr_append_left _ _ _ (by rw [length_setArr]; exact hr),
            getArr_setArr_ne _ _ _ _ (Ne.symm hro)]
        · exact length_setArr _ _ _
      · refine ⟨rfl, ?_, ?_, ?_, ?_, Or.inl rfl⟩
        · rw [PQState.mk.injEq]
          exact ⟨getArr_setArr_self _ _ _ hv, rfl⟩
        · rw [length_setArr]
          exact hv
        · rw [length_setArr]
        · intro r hr hro
          rw [getArr_setArr_ne _ _ _ _ (Ne.symm hro)]
    · refine ⟨rfl, ?_, ?_, ?_, ?_, Or.inl rfl⟩
      · rw [PQState.mk.injEq]
        exact ⟨getArr_setArr_self _ _ _ hv, rfl⟩
      · rw [length_setArr]
        exact hv
      · rw [length_setArr]
      · intro r hr hro
        rw [getArr_setArr_ne _ _ _ _ (Ne.symm hro)]

theorem toState_copyS {Key : Type} (st : ArrStore Key) (o : PQObj) :
    toState (copyS st o).1 (copyS st o).2 = copyA (toState st o) := by
  simp only [copyS, toState, copyA]
  rw [PQState.mk.injEq]
  exact ⟨getArr_append_two _ _ _, rfl⟩

/-- One unfolding step of the store-level generator loop. -/
theorem drainS_succ {Key : Type} (c : Cmp Key) (fuel : Nat) (st : ArrStore Key)
    (o : PQObj) :
    drainS c (fuel + 1) st o =
      if o.n = 0 then (.ok [(none, true)], st)
      else match (delMinS c st o).1 with
        | Except.ok v =>
          (((drainS c fuel (delMinS c st o).2.1 (delMinS c st o).2.2).1).map
            (fun l => (v, false) :: l),
           (drainS c fuel (delMinS c st o).2.1 (delMinS c st o).2.2).2)
        | Except.error e => (.error e, (delMinS c st o).2.1) :=
  rfl

/-- The store-level generator loop refines the functional one, only grows the
store, and leaves every array below a low-water mark `N` (at most the
object's own reference) untouched. -/
theorem drainS_spec {Key : Type} (c : Cmp Key) :
    ∀ (fuel : Nat) (st : ArrStore Key) (o : PQObj) (N : Nat),
      o.ref < st.length → N ≤ st.length → N ≤ o.ref →
      (drainS c fuel st o).1 = drainA c fuel (toState st o) ∧
      N ≤ (drainS c fuel st o).2.length ∧
      (∀ r, r < N → getArr (drainS c fuel st o).2 r = getArr st r) := by
  intro fuel
  induction fuel with
  | zero =>
    intro st o N h1 h2 h3
    exact ⟨rfl, h2, fun r hr => rfl⟩
  | succ fuel ih =>
    intro st o N h1 h2 h3
    rw [drainS_succ, drainA_succ]
    by_cases h0 : o.n = 0
    · rw [if_pos h0, if_pos (show (toState st o).n = 0 from h0)]
      exact ⟨rfl, h2, fun r hr => rfl⟩
    · rw [if_neg h0, if_neg (show ¬ (toState st o).n = 0 from h0)]
      have hspec := delMinS_spec c st o h1
      rcases hA : delMinA c (toState st o) with ⟨rA, sA⟩
      have hr1 : (delMinS c st o).1 = rA := by rw [hspec.1, hA]
      have hr2 : toState (delMinS c st o).2.1 (delMinS c st o).2.2 = sA := by
        rw [hspec.2.1, hA]
      rw [hr1]
      cases rA with
      | error e =>
        refine ⟨rfl, le_trans h2 hspec.2.2.2.1, ?_⟩
        intro r hr
        exact hspec.2.2.2.2.1 r (by omega) (by omega)
      | ok v =>
        have hv' : (delMinS c st o).2.2.ref < (delMinS c st o).2.1.length :=
          hspec.2.2.1
        have hN1 : N ≤ (delMinS c st o).2.1.length := le_trans h2 hspec.2.2.2.1
        have hN2 : N ≤ (delMinS c st o).2.2.ref := by
          rcases hspec.2.2.2.2.2 with he | he
          · omega
          · omega
        have hih := ih (delMinS c st o).2.1 (delMinS c st o).2.2 N hv' hN1 hN2
        refine ⟨?_, hih.2.1, ?_⟩
        · rw [hih.1, hr2]
        · intro r hr
          rw [hih.2.2 r hr]
          exact hspec.2.2.2.2.1 r (by omega) (by omega)

/-- The store-level traversal refines `iterA`, only appends to the store, and
leaves every pre-existing array untouched. -/
theorem iterS_spec {Key : Type} (c : Cmp Key) (st : ArrStore Key) (o : PQObj) :
    (iterS c st o).1 = iterA c (toState st o) ∧
    st.length ≤ (iterS c st o).2.length ∧
    (∀ r, r < st.length → getArr (iterS c st o).2 r = getArr st r) := by
  have h1 : (copyS st o).2.ref < (copyS st o).1.length := by
    simp [copyS]
  have h2 : st.length ≤ (copyS st o).1.length := by
    simp [copyS]
  have h3 : st.length ≤ (copyS st o).2.ref := by
    simp [copyS]
  have hd := drainS_spec c ((copyS st o).2.n + 1) (copyS st o).1 (copyS st o).2
    st.length h1 h2 h3
  refine ⟨?_, hd.2.1, ?_⟩
  · show (drainS c ((copyS st o).2.n + 1) (copyS st o).1 (copyS st o).2).1 = _
    rw [hd.1, toState_copyS]
    rfl
  · intro r hr
    show getArr (drainS c ((copyS st o).2.n + 1) (copyS st o).1 (copyS st o).2).2 r = _
    rw [hd.2.2 r hr]
    exact getArr_append_left _ _ _ hr

/-- C7: after `b = a.copy()`, `b` has the same count and the same elements in
the same positions as `a`, but an independent backing array (a fresh
reference): inserting into or extracting from `a` leaves `b`'s array
untouched, and vice versa.  The comparator is the shared parameter `c` by
construction (`copy` passes `this.comparator`).  `x` and `y` are arbitrary
keys subsequently inserted into `a` resp. `b`. -/
theorem copy_independence {Key : Type} (c : Cmp Key) (st : ArrStore Key)
    (a : PQObj) (x y : Key) (hv : a.ref < st.length) :
    (copyS st a).2.n = a.n ∧
    (∀ i : Nat, aget (getArr (copyS st a).1 (copyS st a).2.ref) (JNum.ofNat i) =
      aget (getArr st a.ref) (JNum.ofNat i)) ∧
    (copyS st a).2.ref ≠ a.ref ∧
    getArr (copyS st a).1 a.ref = getArr st a.ref ∧
    getArr (insertS c (copyS st a).1 a x).1 (copyS st a).2.ref =
      getArr (copyS st a).1 (copyS st a).2.ref ∧
    getArr (delMinS c (copyS st a).1 a).2.1 (copyS st a).2.ref =
      getArr (copyS st a).1 (copyS st a).2.ref ∧
    getArr (insertS c (copyS st a).1 (copyS st a).2 y).1 a.ref = getArr st a.ref ∧
    getArr (delMinS c (copyS st a).1 (copyS st a).2).2.1 a.ref = getArr st a.ref := by
  have hb : (copyS st a).2.ref = st.length + 1 := rfl
  have hl : (copyS st a).1.length = st.length + 2 := by
    simp [copyS]
  have hvA : a.ref < (copyS st a).1.length := by omega
  have hvB : (copyS st a).2.ref < (copyS st a).1.length := by omega
  have hga : getArr (copyS st a).1 a.ref = getArr st a.ref :=
    getArr_append_left _ _ _ hv
  refine ⟨rfl, ?_, by omega, hga, ?_, ?_, ?_, ?_⟩
  · intro i
    have hsp : getArr (copyS st a).1 (copyS st a).2.ref =
        spreadArr (getArr st a.ref) := getArr_append_two _ _ _
    rw [hsp, aget_spreadArr_ofNat]
  · exact (insertS_spec c (copyS st a).1 a x hvA).2.2.2
      (copyS st a).2.ref hvB (by omega)
  · exact (delMinS_spec c (copyS st a).1 a hvA).2.2.2.2.1
      (copyS st a).2.ref hvB (by omega)
  · rw [(insertS_spec c (copyS st a).1 (copyS st a).2 y hvB).2.2.2
      a.ref hvA (by omega)]
    exact hga
  · rw [(delMinS_spec c (copyS st a).1 (copyS st a).2 hvB).2.2.2.2.1
      a.ref hvA (by omega)]
    exact hga

/-- C7 witness: a store holding one heap array with a single element 7. -/
theorem copy_independence_witness :
    (0 : Nat) < ([⟨[none, some 7], []⟩] : ArrStore Int).length ∧
    ((copyS ([⟨[none, some 7], []⟩] : ArrStore Int) ⟨0, 1⟩).2.n = (⟨0, 1⟩ : PQObj).n ∧
    (∀ i : Nat, aget (getArr (copyS ([⟨[none, some 7], []⟩] : ArrStore Int) ⟨0, 1⟩).1
        (copyS ([⟨[none, some 7], []⟩] : ArrStore Int) ⟨0, 1⟩).2.ref) (JNum.ofNat i) =
      aget (getArr ([⟨[none, some 7], []⟩] : ArrStore Int) (⟨0, 1⟩ : PQObj).ref)
        (JNum.ofNat i)) ∧
    (copyS ([⟨[none, some 7], []⟩] : ArrStore Int) ⟨0, 1⟩).2.ref ≠ (⟨0, 1⟩ : PQObj).ref ∧
    getArr (copyS ([⟨[none, some 7], []⟩] : ArrStore Int) ⟨0, 1⟩).1
        (⟨0, 1⟩ : PQObj).ref =
      getArr ([⟨[none, some 7], []⟩] : ArrStore Int) (⟨0, 1⟩ : PQObj).ref ∧
    getArr (insertS cNum (copyS ([⟨[none, some 7], []⟩] : ArrStore Int) ⟨0, 1⟩).1
        ⟨0, 1⟩ 9).1 (copyS ([⟨[none, some 7], []⟩] : ArrStore Int) ⟨0, 1⟩).2.ref =
      getArr (copyS ([⟨[none, some 7], []⟩] : ArrStore Int) ⟨0, 1⟩).1
        (copyS ([⟨[none, some 7], []⟩] : ArrStore Int) ⟨0, 1⟩).2.ref ∧
    getArr (delMinS cNum (copyS ([⟨[none, some 7], []⟩] : ArrStore Int) ⟨0, 1⟩).1
        ⟨0, 1⟩).2.1 (copyS ([⟨[none, some 7], []⟩] : ArrStore Int) ⟨0, 1⟩).2.ref =
      getArr (copyS ([⟨[none, some 7], []⟩] : ArrStore Int) ⟨0, 1⟩).1
        (copyS ([⟨[none, some 7], []⟩] : ArrStore Int) ⟨0, 1⟩).2.ref ∧
    getArr (insertS cNum (copyS ([⟨[none, some 7], []⟩] : ArrStore Int) ⟨0, 1⟩).1
        (copyS ([⟨[none, some 7], []⟩] : ArrStore Int) ⟨0, 1⟩).2 11).1
        (⟨0, 1⟩ : PQObj).ref =
      getArr ([⟨[none, some 7], []⟩] : ArrStore Int) (⟨0, 1⟩ : PQObj).ref ∧
    getArr (delMinS cNum (copyS ([⟨[none, some 7], []⟩] : ArrStore Int) ⟨0, 1⟩).1
        (copyS ([⟨[none, some 7], []⟩] : ArrStore Int) ⟨0, 1⟩).2).2.1
        (⟨0, 1⟩ : PQObj).ref =
      getArr ([⟨[none, some 7], []⟩] : ArrStore Int) (⟨0, 1⟩ : PQObj).ref) :=
  ⟨by decide, copy_independence cNum [⟨[none, some 7], []⟩] ⟨0, 1⟩ 9 11 (by decide)⟩

/-- C8: the traversal never mutates the heap it is invoked on: the heap's
array (hence `size()` and `min()`) is unchanged after the traversal, and
running the traversal again on the resulting store yields the same sequence
(including the case where the sequence ends in an error). -/
theorem traversal_nonmutating_and_restartable {Key : Type} (c : Cmp Key)
    (st : ArrStore Key) (o : PQObj) (hv : o.ref < st.length) :
    getArr (iterS c st o).2 o.ref = getArr st o.ref ∧
    minS (iterS c st o).2 o = minS st o ∧
    toState (iterS c st o).2 o = toState st o ∧
    (iterS c (iterS c st o).2 o).1 = (iterS c st o).1 := by
  have hs := iterS_spec c st o
  have hA : getArr (iterS c st o).2 o.ref = getArr st o.ref := hs.2.2 o.ref hv
  have ht : toState (iterS c st o).2 o = toState st o := by
    simp only [toState, hA]
  refine ⟨hA, ?_, ht, ?_⟩
  · simp only [minS, hA]
  · have hs2 := iterS_spec c (iterS c st o).2 o
    rw [hs2.1, hs.1, ht]

/-- C8 witness: the same one-element store. -/
theorem traversal_nonmutating_witness :
    (0 : Nat) < ([⟨[none, some 7], []⟩] : ArrStore Int).length ∧
    (getArr (iterS cNum ([⟨[none, some 7], []⟩] : ArrStore Int) ⟨0, 1⟩).2
        (⟨0, 1⟩ : PQObj).ref =
      getArr ([⟨[none, some 7], []⟩] : ArrStore Int) (⟨0, 1⟩ : PQObj).ref ∧
    minS (iterS cNum ([⟨[none, some 7], []⟩] : ArrStore Int) ⟨0, 1⟩).2 ⟨0, 1⟩ =
      minS ([⟨[none, some 7], []⟩] : ArrStore Int) ⟨0, 1⟩ ∧
    toState (iterS cNum ([⟨[none, some 7], []⟩] : ArrStore Int) ⟨0, 1⟩).2 ⟨0, 1⟩ =
      toState ([⟨[none, some 7], []⟩] : ArrStore Int) ⟨0, 1⟩ ∧
    (iterS cNum (iterS cNum ([⟨[none, some 7], []⟩] : ArrStore Int) ⟨0, 1⟩).2
        ⟨0, 1⟩).1 =
      (iterS cNum ([⟨[none, some 7], []⟩] : ArrStore Int) ⟨0, 1⟩).1) :=
  ⟨by decide,
   traversal_nonmutating_and_restartable cNum [⟨[none, some 7], []⟩] ⟨0, 1⟩ (by decide)⟩
